import Mathlib

/-!
Verification of the geometric calibration and coordinate-mapping core of the
`sample-camera` repository against its natural-language specification.

The Python source is shallowly embedded below.  Machine floats are modelled
with exact rationals (`ℚ`); integer pixel coordinates with `ℤ`.  Every
definition is translated from the corresponding function in the source
(file and line references are given in each doc comment); the OpenCV
perspective-transform solver, which the source calls as a library, is the
one definition modelled from the specification text instead.
-/

/-! ## Circumcenter (`placement_module.py`, `_calculate_circumcenter`)

`_calculate_and_draw_rectangle` converts the calibration points with
`np.array(points, dtype=np.int32)` (placement_module.py line 154), so all
integer arithmetic inside `_calculate_circumcenter` is wrapping 32-bit
arithmetic.  Every wrapping `np.int32` operation preserves the residue mod
`2^32`, so the value of a chain of such operations is the two's-complement
wrap of the exact integer result; the definitions below therefore wrap the
exact polynomial value of each expression the code computes. -/

/-- Two's-complement wrap of an integer into the signed 32-bit range
`[-2^31, 2^31)`, the value a chain of `np.int32` operations produces. -/
def wrap32 (n : ℤ) : ℤ := (n + 2 ^ 31) % 2 ^ 32 - 2 ^ 31

/-- The exact (unbounded) value of the determinant expression
`2*(x1*(y2-y3) + x2*(y3-y1) + x3*(y1-y2))` of placement_module.py line
107. -/
def circumDexact (p1 p2 p3 : ℤ × ℤ) : ℤ :=
  2 * (p1.1 * (p2.2 - p3.2) + p2.1 * (p3.2 - p1.2) + p3.1 * (p1.2 - p2.2))

/-- `D` as the code computes it: the determinant expression evaluated in
wrapping `np.int32` arithmetic. -/
def circumD (p1 p2 p3 : ℤ × ℤ) : ℤ := wrap32 (circumDexact p1 p2 p3)

/-- The exact (unbounded) value of the `ux` numerator of
placement_module.py line 113. -/
def circumNumX (p1 p2 p3 : ℤ × ℤ) : ℤ :=
  (p1.1 ^ 2 + p1.2 ^ 2) * (p2.2 - p3.2) + (p2.1 ^ 2 + p2.2 ^ 2) * (p3.2 - p1.2)
    + (p3.1 ^ 2 + p3.2 ^ 2) * (p1.2 - p2.2)

/-- The exact (unbounded) value of the `uy` numerator of
placement_module.py line 114. -/
def circumNumY (p1 p2 p3 : ℤ × ℤ) : ℤ :=
  (p1.1 ^ 2 + p1.2 ^ 2) * (p3.1 - p2.1) + (p2.1 ^ 2 + p2.2 ^ 2) * (p1.1 - p3.1)
    + (p3.1 ^ 2 + p3.2 ^ 2) * (p2.1 - p1.1)

/-- `ux` as the code computes it (placement_module.py line 113): the
`np.int32`-wrapped numerator divided by the wrapped `D`
(`np.int32 / np.int32` is float true division, modelled exactly in `ℚ`). -/
def circumUx (p1 p2 p3 : ℤ × ℤ) : ℚ :=
  ((wrap32 (circumNumX p1 p2 p3) : ℤ) : ℚ) / ((circumD p1 p2 p3 : ℤ) : ℚ)

/-- `uy` as the code computes it (placement_module.py line 114). -/
def circumUy (p1 p2 p3 : ℤ × ℤ) : ℚ :=
  ((wrap32 (circumNumY p1 p2 p3) : ℤ) : ℚ) / ((circumD p1 p2 p3 : ℤ) : ℚ)

/-- Python `int(...)` applied to a real value: truncation toward zero. -/
def ratTrunc (q : ℚ) : ℤ := if 0 ≤ q then ⌊q⌋ else -⌊-q⌋

/-- `_calculate_circumcenter(pts)` (placement_module.py lines 100-116):
returns `None` when the (wrapped) `D == 0`, otherwise the pair
`(int(ux), int(uy))`. -/
def calcCircumcenter (p1 p2 p3 : ℤ × ℤ) : Option (ℤ × ℤ) :=
  if circumD p1 p2 p3 = 0 then none
  else some (ratTrunc (circumUx p1 p2 p3), ratTrunc (circumUy p1 p2 p3))

/-- Squared Euclidean distance between two rational points. -/
def sqDistQ (a b : ℚ × ℚ) : ℚ := (a.1 - b.1) ^ 2 + (a.2 - b.2) ^ 2

/-! ## View state and pan/zoom controls
(`ui_components.py`, `BaseUIState` and `handle_view_controls`) -/

/-- The view-control fields of `BaseUIState` (ui_components.py lines 95-103):
zoom level, pan offset (top-left of the view in source-frame coordinates),
the middle-button panning flag and the recorded pan anchor. -/
structure VState where
  zoom : ℚ
  panX : ℚ
  panY : ℚ
  panning : Bool
  startX : ℚ
  startY : ℚ
deriving DecidableEq

/-- `np.clip(x, lo, hi) = min(hi, max(lo, x))`. -/
def clampQ (lo hi x : ℚ) : ℚ := min hi (max lo x)

/-- The unconditional pan clamp run at the end of `handle_view_controls`
(ui_components.py lines 128-132): clip each pan component into
`[0, frame * (1 - 1/zoom)]`. -/
def clampPan (W H : ℚ) (s : VState) : VState :=
  { s with
    panX := clampQ 0 (W * (1 - 1 / s.zoom)) s.panX
    panY := clampQ 0 (H * (1 - 1 / s.zoom)) s.panY }

/-- The mouse events consumed by `handle_view_controls`: middle-button
down/move/up drive panning, the wheel drives zooming, and any other button
event falls through to the final pan clamp only. -/
inductive VEvent where
  | mdown (vx vy : ℚ)
  | mmove (vx vy : ℚ)
  | mup (vx vy : ℚ)
  | wheel (up : Bool) (vx vy : ℚ)
  | button (vx vy : ℚ)

/-- One call of `handle_view_controls(event, x, y, flags, state)`
(ui_components.py lines 105-136).  The float constant `1.2` is modelled
exactly as `6/5`.  Every branch ends in the pan clamp, exactly as in the
source. -/
def viewStep (W H : ℚ) (e : VEvent) (s : VState) : VState :=
  clampPan W H <|
    match e with
    | .mdown vx vy =>
        { s with panning := true, startX := vx / s.zoom + s.panX, startY := vy / s.zoom + s.panY }
    | .mmove vx vy =>
        if s.panning then
          { s with panX := s.startX - vx / s.zoom, panY := s.startY - vy / s.zoom }
        else s
    | .mup _ _ => { s with panning := false }
    | .wheel up vx vy =>
        let ax := s.panX + vx / s.zoom
        let ay := s.panY + vy / s.zoom
        let nz := clampQ 1 10 (if up then s.zoom * (6 / 5) else s.zoom / (6 / 5))
        { s with zoom := nz, panX := ax - vx / nz, panY := ay - vy / nz }
    | .button _ _ => s

/-- The initial view state built by `BaseUIState.__init__`:
zoom 1.0, pan offset (0,0), not panning. -/
def initVState : VState := ⟨1, 0, 0, false, 0, 0⟩

/-- `point_on_frame = pan_offset + point_on_view / zoom`
(ui_components.py line 135). -/
def toSourceFrame (s : VState) (vx vy : ℚ) : ℚ × ℚ :=
  (s.panX + vx / s.zoom, s.panY + vy / s.zoom)

/-- Folding a sequence of mouse events from the initial view state. -/
def runEvents (W H : ℚ) (es : List VEvent) : VState :=
  es.foldl (fun s e => viewStep W H e s) initVState

/-- The pan/zoom invariant claimed by the specification:
zoom within `[1, 10]`, the pan offset within
`[0, frame*(1-1/zoom)]` componentwise, and pan exactly `(0,0)` at zoom 1. -/
def panInv (W H : ℚ) (s : VState) : Prop :=
  1 ≤ s.zoom ∧ s.zoom ≤ 10 ∧
  0 ≤ s.panX ∧ s.panX ≤ W * (1 - 1 / s.zoom) ∧
  0 ≤ s.panY ∧ s.panY ≤ H * (1 - 1 / s.zoom) ∧
  (s.zoom = 1 → s.panX = 0 ∧ s.panY = 0)

/-! ## Calibration point placement and removal
(`calibration_module.py`, `_mouse_callback`, lines 152-171) -/

/-- The source-frame point computed for a click in `_mouse_callback`
(calibration_module.py lines 152-154): the pan offset has already passed the
unconditional clamp at lines 146-150 before the point is computed. -/
def calibClickPoint (W H : ℚ) (s : VState) (vx vy : ℚ) : ℚ × ℚ :=
  toSourceFrame (clampPan W H s) vx vy

/-- Left-click point placement (calibration_module.py lines 157-160):
when fewer than 3 points are stored, append
`(int(point_on_frame[0]), int(point_on_frame[1]))`. -/
def calibAddPoint (W H : ℚ) (s : VState) (points : List (ℤ × ℤ)) (vx vy : ℚ) :
    List (ℤ × ℤ) :=
  if points.length < 3 then
    points ++ [(ratTrunc (calibClickPoint W H s vx vy).1,
                ratTrunc (calibClickPoint W H s vx vy).2)]
  else points

/-- Squared distance from a stored integer point to a rational click point. -/
def sqDistZQ (p : ℤ × ℤ) (c : ℚ × ℚ) : ℚ :=
  ((p.1 : ℚ) - c.1) ^ 2 + ((p.2 : ℚ) - c.2) ^ 2

/-- Right-click removal in `_mouse_callback` (calibration_module.py lines
161-171): scan the stored points in order and remove the FIRST one whose
distance to the click is below the detection radius (the loop breaks at the
first hit).  The source compares Euclidean distances
(`np.linalg.norm(...) < detection_radius`); with a nonnegative radius this
is equivalent to the squared comparison used here, which keeps the model in
`ℚ`. -/
def calibRemoveFirstWithin (r2 : ℚ) (c : ℚ × ℚ) : List (ℤ × ℤ) → List (ℤ × ℤ)
  | [] => []
  | p :: rest =>
      if sqDistZQ p c < r2 then rest else p :: calibRemoveFirstWithin r2 c rest

/-- Right-click removal with the source's zoom-scaled radius
`detection_radius = 15 / zoom` (calibration_module.py line 162). -/
def calibRemoveNearest (zoom : ℚ) (points : List (ℤ × ℤ)) (c : ℚ × ℚ) :
    List (ℤ × ℤ) :=
  calibRemoveFirstWithin ((15 / zoom) ^ 2) c points

/-! ## Corner ordering (`positions_module.py`, `_order_points`, lines 399-404)

`s = pts.sum(axis=1)` is `x + y` per corner; `diff = np.diff(pts, axis=1)`
is `y - x` per corner.  The returned array is
`[pts[argmin s], pts[argmin diff], pts[argmax s], pts[argmax diff]]`.
`np.argmin`/`np.argmax` return the first index attaining the extremum, which
the fold below reproduces (the running value is replaced only on a strict
improvement). -/

/-- An (unordered) quadruple of corner points. -/
structure Quad where
  q0 : ℚ × ℚ
  q1 : ℚ × ℚ
  q2 : ℚ × ℚ
  q3 : ℚ × ℚ
deriving DecidableEq

/-- The list of the four corners, in input order. -/
def quadList (q : Quad) : List (ℚ × ℚ) := [q.q0, q.q1, q.q2, q.q3]

/-- `pts[np.argmin([f p0, f p1, f p2, f p3])]`: first point attaining the
minimum of `f`. -/
def selMin (f : ℚ × ℚ → ℚ) (p0 p1 p2 p3 : ℚ × ℚ) : ℚ × ℚ :=
  let m1 := if f p1 < f p0 then p1 else p0
  let m2 := if f p2 < f m1 then p2 else m1
  if f p3 < f m2 then p3 else m2

/-- `pts[np.argmax([f p0, f p1, f p2, f p3])]`: first point attaining the
maximum of `f`. -/
def selMax (f : ℚ × ℚ → ℚ) (p0 p1 p2 p3 : ℚ × ℚ) : ℚ × ℚ :=
  let m1 := if f p0 < f p1 then p1 else p0
  let m2 := if f m1 < f p2 then p2 else m1
  if f m2 < f p3 then p3 else m2

/-- `s`: the per-corner coordinate sum `x + y`. -/
def sumXY (p : ℚ × ℚ) : ℚ := p.1 + p.2

/-- `diff`: `np.diff` along axis 1 gives `y - x` per corner. -/
def diffYX (p : ℚ × ℚ) : ℚ := p.2 - p.1

/-- `_order_points(pts)`: `[argmin s, argmin diff, argmax s, argmax diff]`,
i.e. the slots the code treats as (top-left, top-right, bottom-right,
bottom-left). -/
def orderPoints (q : Quad) : Quad :=
  ⟨selMin sumXY q.q0 q.q1 q.q2 q.q3,
   selMin diffYX q.q0 q.q1 q.q2 q.q3,
   selMax sumXY q.q0 q.q1 q.q2 q.q3,
   selMax diffYX q.q0 q.q1 q.q2 q.q3⟩

/-! ## Perspective transform

`positions_module.py` builds the pixel-to-mm map with
`cv2.getPerspectiveTransform(src_pts, dst_pts)` and applies it with
`cv2.perspectiveTransform`; the grid renderer
(`sample_positions_module.py`, `_draw_dynamic_grid`) builds the reverse map
`cv2.getPerspectiveTransform(dst_pts, src_pts)` from the same corner
correspondences in the opposite direction. -/

/-- A 3x3 rational matrix, row major. -/
@[ext]
structure M3 where
  m00 : ℚ
  m01 : ℚ
  m02 : ℚ
  m10 : ℚ
  m11 : ℚ
  m12 : ℚ
  m20 : ℚ
  m21 : ℚ
  m22 : ℚ
deriving DecidableEq

/-- Matrix product of 3x3 matrices. -/
def mul3 (A B : M3) : M3 :=
  ⟨A.m00 * B.m00 + A.m01 * B.m10 + A.m02 * B.m20,
   A.m00 * B.m01 + A.m01 * B.m11 + A.m02 * B.m21,
   A.m00 * B.m02 + A.m01 * B.m12 + A.m02 * B.m22,
   A.m10 * B.m00 + A.m11 * B.m10 + A.m12 * B.m20,
   A.m10 * B.m01 + A.m11 * B.m11 + A.m12 * B.m21,
   A.m10 * B.m02 + A.m11 * B.m12 + A.m12 * B.m22,
   A.m20 * B.m00 + A.m21 * B.m10 + A.m22 * B.m20,
   A.m20 * B.m01 + A.m21 * B.m11 + A.m22 * B.m21,
   A.m20 * B.m02 + A.m21 * B.m12 + A.m22 * B.m22⟩

/-- Determinant of a 3x3 matrix. -/
def det3 (A : M3) : ℚ :=
  A.m00 * (A.m11 * A.m22 - A.m12 * A.m21)
  - A.m01 * (A.m10 * A.m22 - A.m12 * A.m20)
  + A.m02 * (A.m10 * A.m21 - A.m11 * A.m20)

/-- Adjugate (transposed cofactor matrix) of a 3x3 matrix. -/
def adj3 (A : M3) : M3 :=
  ⟨A.m11 * A.m22 - A.m12 * A.m21,
   -(A.m01 * A.m22 - A.m02 * A.m21),
   A.m01 * A.m12 - A.m02 * A.m11,
   -(A.m10 * A.m22 - A.m12 * A.m20),
   A.m00 * A.m22 - A.m02 * A.m20,
   -(A.m00 * A.m12 - A.m02 * A.m10),
   A.m10 * A.m21 - A.m11 * A.m20,
   -(A.m00 * A.m21 - A.m01 * A.m20),
   A.m00 * A.m11 - A.m01 * A.m10⟩

/-- Scalar multiple of a 3x3 matrix. -/
def smul3 (c : ℚ) (A : M3) : M3 :=
  ⟨c * A.m00, c * A.m01, c * A.m02, c * A.m10, c * A.m11, c * A.m12,
   c * A.m20, c * A.m21, c * A.m22⟩

/-- The 3x3 identity matrix. -/
def idM3 : M3 := ⟨1, 0, 0, 0, 1, 0, 0, 0, 1⟩

/-- Homogeneous 3-vectors. -/
abbrev V3 : Type := ℚ × ℚ × ℚ

/-- Matrix-vector product. -/
def mulVec3 (A : M3) (v : V3) : V3 :=
  (A.m00 * v.1 + A.m01 * v.2.1 + A.m02 * v.2.2,
   A.m10 * v.1 + A.m11 * v.2.1 + A.m12 * v.2.2,
   A.m20 * v.1 + A.m21 * v.2.1 + A.m22 * v.2.2)

/-- Lift a planar point to homogeneous coordinates. -/
def lift2 (p : ℚ × ℚ) : V3 := (p.1, p.2, 1)

/-- Determinant of the 3x3 matrix with the given columns. -/
def det3v (u v w : V3) : ℚ :=
  u.1 * (v.2.1 * w.2.2 - v.2.2 * w.2.1)
  - v.1 * (u.2.1 * w.2.2 - u.2.2 * w.2.1)
  + w.1 * (u.2.1 * v.2.2 - u.2.2 * v.2.1)

/-- Modelled from the spec: the repository calls OpenCV's
`cv2.getPerspectiveTransform`, whose implementation is not under `src/`;
the spec describes it as "a projective homography (8 degrees of freedom,
solved from 4 point correspondences)".  `basisH q` is the canonical such
solve for one side of the correspondence: the matrix whose columns are the
lifted corners of `q` scaled by the Cramer coefficients of the fourth
corner in terms of the first three, so that (projectively) the standard
basis maps to `q`'s four corners.  A full 4-to-4-point homography is then
assembled in `getPT`.  For well-posed inputs the result equals OpenCV's
matrix up to the overall projective scale, which cancels in
`cv2.perspectiveTransform`'s division. -/
def basisH (q : Quad) : M3 :=
  let v0 := lift2 q.q0
  let v1 := lift2 q.q1
  let v2 := lift2 q.q2
  let v3 := lift2 q.q3
  let c0 := det3v v3 v1 v2
  let c1 := det3v v0 v3 v2
  let c2 := det3v v0 v1 v3
  ⟨c0 * v0.1, c1 * v1.1, c2 * v2.1,
   c0 * v0.2.1, c1 * v1.2.1, c2 * v2.2.1,
   c0 * v0.2.2, c1 * v1.2.2, c2 * v2.2.2⟩

/-- Modelled from the spec (continuation of `basisH`):
`getPT src dst` is the projective map sending the four corners of `src` to
the corresponding corners of `dst` — the model of
`cv2.getPerspectiveTransform(src, dst)`.  `adj3 (basisH src)` inverts the
basis map projectively (exactly, up to the factor `det3 (basisH src)`),
avoiding division. -/
def getPT (src dst : Quad) : M3 := mul3 (basisH dst) (adj3 (basisH src))

/-- The denominator `w` produced when applying homography `M` at point `p`. -/
def wOf (M : M3) (p : ℚ × ℚ) : ℚ := M.m20 * p.1 + M.m21 * p.2 + M.m22

/-- `cv2.perspectiveTransform` at a single point: divide the first two
homogeneous output coordinates by the third; OpenCV maps points with `w = 0`
to `(0, 0)` (it multiplies by `w != 0 ? 1/w : 0`). -/
def applyH (M : M3) (p : ℚ × ℚ) : ℚ × ℚ :=
  let v := mulVec3 M (lift2 p)
  if v.2.2 = 0 then (0, 0) else (v.1 / v.2.2, v.2.1 / v.2.2)

/-- The destination rectangle of `_transform_cam_to_real`
(positions_module.py lines 319-320): `dst_w = 130*10`, `dst_h = 120*10`,
corners `[(0,0), (dst_w-1,0), (dst_w-1,dst_h-1), (0,dst_h-1)]`. -/
def dstQuad : Quad := ⟨(0, 0), (1299, 0), (1299, 1199), (0, 1199)⟩

/-- The forward (pixel to 0.1mm) homography image of a camera point, as
computed inside `_transform_cam_to_real`: corners are ordered by
`_order_points` and mapped onto `dstQuad`. -/
def fwdImage (corners : Quad) (p : ℚ × ℚ) : ℚ × ℚ :=
  applyH (getPT (orderPoints corners) dstQuad) p

/-- The bounds test of `_transform_cam_to_real` (positions_module.py line
323): `0 <= t[0] < dst_w and 0 <= t[1] < dst_h`. -/
def inDst (t : ℚ × ℚ) : Prop := 0 ≤ t.1 ∧ t.1 < 1300 ∧ 0 ≤ t.2 ∧ t.2 < 1200

instance (t : ℚ × ℚ) : Decidable (inDst t) := by unfold inDst; infer_instance

/-- `_transform_cam_to_real(point_on_cam)` (positions_module.py lines
315-325) for a valid 4-corner rectangle: apply the forward homography; if
the image lies in the destination rectangle return it divided by 10 (back
to mm), otherwise return `None`. -/
def transformCamToReal (corners : Quad) (p : ℚ × ℚ) : Option (ℚ × ℚ) :=
  let t := fwdImage corners p
  if inDst t then some (t.1 / 10, t.2 / 10) else none

/-- The grid renderer's mm-to-pixel map (`_draw_dynamic_grid`,
sample_positions_module.py lines 229-251): endpoints are given in 0.1mm
destination units and mapped through
`cv2.getPerspectiveTransform(dst_pts, src_pts)`; composed here with the
mm-to-0.1mm scaling so it consumes the mm output of `transformCamToReal`. -/
def gridMmToPixel (corners : Quad) (q : ℚ × ℚ) : ℚ × ℚ :=
  applyH (getPT dstQuad (orderPoints corners)) (10 * q.1, 10 * q.2)

/-! ## Sample set (`positions_module.py`, `SamplePositionsFrame`) -/

/-- One entry of `self.sample_points`: a dict
`{'file', 'sample_id', 'cam_coords', 'real_coords'}`
(positions_module.py line 219). -/
structure Sample where
  file : String
  sampleId : String
  cam : ℚ × ℚ
  real : ℚ × ℚ
deriving DecidableEq

/-- `str(n).zfill(2)`: the decimal representation of `n`, left-padded with
zeros to width 2. -/
def padFile (n : ℕ) : String := if n < 10 then "0" ++ toString n else toString n

/-- `_renumber_files` (positions_module.py lines 327-329), generalized to
start numbering at `k`: rewrite each `file` field to the zero-padded
1-based position. -/
def renumAux (k : ℕ) : List Sample → List Sample
  | [] => []
  | p :: r => { p with file := padFile k } :: renumAux (k + 1) r

/-- `_renumber_files`: `point['file'] = str(i + 1).zfill(2)` for each index
`i`. -/
def renumberFiles (pts : List Sample) : List Sample := renumAux 1 pts

/-- Left-click sample placement (`on_mouse_event`, positions_module.py lines
213-221): if `_transform_cam_to_real` returns `None` nothing happens;
otherwise append a sample with file id `str(len + 1).zfill(2)`, empty
sample id, the camera point and the mm point. -/
def leftClickAdd (corners : Quad) (pts : List Sample) (p : ℚ × ℚ) : List Sample :=
  match transformCamToReal corners p with
  | none => pts
  | some m => pts ++ [⟨padFile (pts.length + 1), "", p, m⟩]

/-- The minimum of a list of rationals (0 for the empty list, which the
callers never pass). -/
def minVal : List ℚ → ℚ
  | [] => 0
  | [x] => x
  | x :: y :: r => min x (minVal (y :: r))

/-- `np.argmin`: the first index attaining the minimum. -/
def minIdx : List ℚ → ℕ
  | [] => 0
  | [_] => 0
  | x :: y :: r => if x ≤ minVal (y :: r) then 0 else minIdx (y :: r) + 1

/-- Right-click sample removal (`on_mouse_event`, positions_module.py lines
222-232): if any samples exist, find the index of minimal distance to the
click; if that distance is below `15 / zoom`, delete the sample and
renumber the files.  Distances are compared squared (equivalent to the
source's Euclidean comparison for the nonnegative radius). -/
def removeNearestSample (zoom : ℚ) (pts : List Sample) (c : ℚ × ℚ) : List Sample :=
  match pts with
  | [] => []
  | _ :: _ =>
      let ds := pts.map fun p => sqDistQ p.cam c
      let i := minIdx ds
      if ds.getD i 0 < (15 / zoom) ^ 2 then renumberFiles (pts.eraseIdx i) else pts


/-! ## Concrete inputs used in counterexamples and witnesses -/

/-- The concrete view state of the C2 counterexample: zoom 2, pan at its
upper clamp bound `(50, 50)` for a 100x100 frame. -/
def cexVState : VState := ⟨2, 50, 50, false, 0, 0⟩

/-- The axis-aligned test square used in the C6 counterexample, with image
coordinates (y grows downward): `(0,0)` top-left, `(10,0)` top-right,
`(10,10)` bottom-right, `(0,10)` bottom-left. -/
def testSq : Quad := ⟨(0, 0), (10, 0), (10, 10), (0, 10)⟩

/-- Five concrete samples with dense file ids `01..05`, for the C8 witness. -/
def fiveSamples : List Sample :=
  [⟨"01", "a", (10, 10), (1, 1)⟩, ⟨"02", "b", (20, 10), (2, 1)⟩,
   ⟨"03", "c", (30, 10), (3, 1)⟩, ⟨"04", "d", (40, 10), (4, 1)⟩,
   ⟨"05", "e", (50, 10), (5, 1)⟩]

/-- A concrete non-degenerate rectangle: the axis-aligned square with side
100, corners already in (TL, TR, BR, BL) order. -/
def corners100 : Quad := ⟨(0, 0), (100, 0), (100, 100), (0, 100)⟩

/-- A degenerate "rectangle": all four corners coincide at `(300, 300)`.
It has length 4, so it passes the only guard in `_transform_cam_to_real`. -/
def degQuad : Quad := ⟨(300, 300), (300, 300), (300, 300), (300, 300)⟩

/-! ## Helper lemmas -/

/-- Cast an integer pixel point to a rational point. -/
def liftZ (p : ℤ × ℤ) : ℚ × ℚ := ((p.1 : ℚ), (p.2 : ℚ))

/-- `ratTrunc` is truncation: it lands within one unit of its argument and
never moves away from zero. -/
theorem ratTrunc_char (q : ℚ) : |q - (ratTrunc q : ℚ)| < 1 ∧ |(ratTrunc q : ℚ)| ≤ |q| := by
  unfold ratTrunc
  split_ifs with h
  · have h1 := Int.floor_le q
    have h2 := Int.sub_one_lt_floor q
    have h3 : (0 : ℚ) ≤ (⌊q⌋ : ℚ) := by exact_mod_cast Int.floor_nonneg.mpr h
    rw [abs_of_nonneg (by linarith), abs_of_nonneg h, abs_of_nonneg h3]
    constructor <;> linarith
  · push_neg at h
    have h1 := Int.floor_le (-q)
    have h2 := Int.sub_one_lt_floor (-q)
    have h3 : (0 : ℚ) ≤ (⌊-q⌋ : ℚ) := by exact_mod_cast Int.floor_nonneg.mpr (by linarith)
    push_cast
    rw [abs_of_nonpos (by linarith), abs_of_neg h, abs_of_nonpos (by linarith)]
    constructor <;> linarith

/-! ## C1: circumcenter -/

/-- C1 (amended).  `_calculate_circumcenter` computes in wrapping
`np.int32` arithmetic (its caller converts the points with
`dtype=np.int32`).  It fails exactly when the wrapped `D` is 0, and
otherwise returns `(int(ux), int(uy))`: the quotients of the wrapped
numerators by the wrapped `D`, truncated componentwise toward zero by
Python's `int()`.  Whenever the numerators and the determinant do not
overflow int32 and the points are not collinear, `ux` and `uy` are the
exact rational circumcenter — the point equidistant from the three
inputs — so the returned pair is that circumcenter truncated toward zero.
In particular `(0,0),(4,0),(0,4)` yields `(2,2)` and the collinear
`(0,0),(1,1),(2,2)` yields no center. -/
theorem circumcenter_trunc_spec :
    (∀ p1 p2 p3 : ℤ × ℤ,
      (circumD p1 p2 p3 = 0 → calcCircumcenter p1 p2 p3 = none) ∧
      (circumD p1 p2 p3 ≠ 0 →
        calcCircumcenter p1 p2 p3
            = some (ratTrunc (circumUx p1 p2 p3), ratTrunc (circumUy p1 p2 p3))) ∧
      (wrap32 (circumNumX p1 p2 p3) = circumNumX p1 p2 p3 →
        wrap32 (circumNumY p1 p2 p3) = circumNumY p1 p2 p3 →
        wrap32 (circumDexact p1 p2 p3) = circumDexact p1 p2 p3 →
        circumDexact p1 p2 p3 ≠ 0 →
        circumD p1 p2 p3 ≠ 0 ∧
        circumUx p1 p2 p3
            = ((circumNumX p1 p2 p3 : ℤ) : ℚ) / ((circumDexact p1 p2 p3 : ℤ) : ℚ) ∧
        circumUy p1 p2 p3
            = ((circumNumY p1 p2 p3 : ℤ) : ℚ) / ((circumDexact p1 p2 p3 : ℤ) : ℚ) ∧
        sqDistQ (circumUx p1 p2 p3, circumUy p1 p2 p3) (liftZ p1)
            = sqDistQ (circumUx p1 p2 p3, circumUy p1 p2 p3) (liftZ p2) ∧
        sqDistQ (circumUx p1 p2 p3, circumUy p1 p2 p3) (liftZ p1)
            = sqDistQ (circumUx p1 p2 p3, circumUy p1 p2 p3) (liftZ p3))) ∧
    calcCircumcenter (0, 0) (4, 0) (0, 4) = some (2, 2) ∧
    calcCircumcenter (0, 0) (1, 1) (2, 2) = none := by
  refine ⟨fun p1 p2 p3 => ⟨fun h => by simp [calcCircumcenter, h],
    fun h => by simp [calcCircumcenter, h], fun hx hy hD hD0 => ?_⟩, ?_, ?_⟩
  · have hDne : circumD p1 p2 p3 ≠ 0 := by
      unfold circumD
      rw [hD]
      exact hD0
    have hux : circumUx p1 p2 p3
        = ((circumNumX p1 p2 p3 : ℤ) : ℚ) / ((circumDexact p1 p2 p3 : ℤ) : ℚ) := by
      unfold circumUx circumD
      rw [hx, hD]
    have huy : circumUy p1 p2 p3
        = ((circumNumY p1 p2 p3 : ℤ) : ℚ) / ((circumDexact p1 p2 p3 : ℤ) : ℚ) := by
      unfold circumUy circumD
      rw [hy, hD]
    refine ⟨hDne, hux, huy, ?_, ?_⟩ <;>
    · obtain ⟨x1, y1⟩ := p1
      obtain ⟨x2, y2⟩ := p2
      obtain ⟨x3, y3⟩ := p3
      rw [hux, huy]
      have hD9 : ((2 * (x1 * (y2 - y3) + x2 * (y3 - y1) + x3 * (y1 - y2)) : ℤ) : ℚ) ≠ 0 := by
        simp only [circumDexact] at hD0
        exact_mod_cast hD0
      simp only [circumNumX, circumNumY, circumDexact, sqDistQ, liftZ] at hD9 ⊢
      push_cast at hD9 ⊢
      field_simp
      ring
  · norm_num [calcCircumcenter, circumD, circumDexact, circumUx, circumUy, circumNumX,
      circumNumY, wrap32, ratTrunc]
  · norm_num [calcCircumcenter, circumD, circumDexact, wrap32]

/-- C1 counterexample to the claim as stated: for inputs `(0,0),(1,0),(0,1)`
(small enough that nothing wraps) the code returns `(0,0)` (the true
circumcenter `(1/2,1/2)` truncated), which is not equidistant from the
three inputs: it lies at squared distance 0 from the first input and 1 from
the second. -/
theorem circumcenter_not_equidistant_cex :
    calcCircumcenter (0, 0) (1, 0) (0, 1) = some (0, 0) ∧
    sqDistQ (0, 0) (liftZ (0, 0)) ≠ sqDistQ (0, 0) (liftZ (1, 0)) := by
  constructor
  · norm_num [calcCircumcenter, circumD, circumDexact, circumUx, circumUy, circumNumX,
      circumNumY, wrap32, ratTrunc]
  · norm_num [sqDistQ, liftZ]

/-- Witness for C1's theorem at the concrete triangle `(0,0),(4,0),(0,4)`,
whose numerators (64, 64) and determinant (32) are far inside the int32
range. -/
theorem circumcenter_trunc_spec_witness :
    calcCircumcenter (0, 0) (4, 0) (0, 4)
        = some (ratTrunc (circumUx (0, 0) (4, 0) (0, 4)),
                ratTrunc (circumUy (0, 0) (4, 0) (0, 4))) ∧
    circumUx (0, 0) (4, 0) (0, 4)
        = ((circumNumX (0, 0) (4, 0) (0, 4) : ℤ) : ℚ)
            / ((circumDexact (0, 0) (4, 0) (0, 4) : ℤ) : ℚ) ∧
    circumUy (0, 0) (4, 0) (0, 4)
        = ((circumNumY (0, 0) (4, 0) (0, 4) : ℤ) : ℚ)
            / ((circumDexact (0, 0) (4, 0) (0, 4) : ℤ) : ℚ) ∧
    sqDistQ (circumUx (0, 0) (4, 0) (0, 4), circumUy (0, 0) (4, 0) (0, 4)) (liftZ (0, 0))
        = sqDistQ (circumUx (0, 0) (4, 0) (0, 4), circumUy (0, 0) (4, 0) (0, 4)) (liftZ (4, 0)) ∧
    sqDistQ (circumUx (0, 0) (4, 0) (0, 4), circumUy (0, 0) (4, 0) (0, 4)) (liftZ (0, 0))
        = sqDistQ (circumUx (0, 0) (4, 0) (0, 4), circumUy (0, 0) (4, 0) (0, 4)) (liftZ (0, 4)) := by
  have h3 := (circumcenter_trunc_spec.1 (0, 0) (4, 0) (0, 4)).2.2
    (by decide) (by decide) (by decide) (by decide)
  have h2 := (circumcenter_trunc_spec.1 (0, 0) (4, 0) (0, 4)).2.1 h3.1
  exact ⟨h2, h3.2.1, h3.2.2.1, h3.2.2.2.1, h3.2.2.2.2⟩

/-! ## C10: calibration clicks store truncated coordinates -/

/-- C10.  A left-click in the image area with fewer than 3 points stored
appends exactly the source-frame point `panOffset + clickView/zoom`
(computed after the unconditional pan clamp) truncated componentwise toward
zero; the stored value is an integer point within one pixel of the exact
rational coordinate, so sub-pixel precision is discarded. -/
theorem calib_click_stores_truncated (W H : ℚ) (s : VState) (points : List (ℤ × ℤ))
    (vx vy : ℚ) (h : points.length < 3) :
    calibAddPoint W H s points vx vy
        = points ++ [(ratTrunc (calibClickPoint W H s vx vy).1,
                      ratTrunc (calibClickPoint W H s vx vy).2)] ∧
    |(calibClickPoint W H s vx vy).1
        - (ratTrunc (calibClickPoint W H s vx vy).1 : ℚ)| < 1 ∧
    |(calibClickPoint W H s vx vy).2
        - (ratTrunc (calibClickPoint W H s vx vy).2 : ℚ)| < 1 := by
  exact ⟨by simp [calibAddPoint, h], (ratTrunc_char _).1, (ratTrunc_char _).1⟩

/-- Witness for C10: a click at view point `(10, 7)` on a zoomed-in state
with two points stored. -/
theorem calib_click_stores_truncated_witness :
    calibAddPoint 100 100 ⟨2, 5, 5, false, 0, 0⟩ [(1, 1), (2, 2)] 10 7
        = [(1, 1), (2, 2)]
            ++ [(ratTrunc (calibClickPoint 100 100 ⟨2, 5, 5, false, 0, 0⟩ 10 7).1,
                 ratTrunc (calibClickPoint 100 100 ⟨2, 5, 5, false, 0, 0⟩ 10 7).2)] ∧
    |(calibClickPoint 100 100 ⟨2, 5, 5, false, 0, 0⟩ 10 7).1
        - (ratTrunc (calibClickPoint 100 100 ⟨2, 5, 5, false, 0, 0⟩ 10 7).1 : ℚ)| < 1 ∧
    |(calibClickPoint 100 100 ⟨2, 5, 5, false, 0, 0⟩ 10 7).2
        - (ratTrunc (calibClickPoint 100 100 ⟨2, 5, 5, false, 0, 0⟩ 10 7).2 : ℚ)| < 1 :=
  calib_click_stores_truncated 100 100 ⟨2, 5, 5, false, 0, 0⟩ [(1, 1), (2, 2)] 10 7
    (by norm_num)

/-! ## Clamp lemmas -/

/-- Clamping is the identity inside the bounds. -/
theorem clampQ_eq_self (lo hi x : ℚ) (h0 : lo ≤ x) (h1 : x ≤ hi) : clampQ lo hi x = x := by
  unfold clampQ
  rw [max_eq_right h0, min_eq_right h1]

/-- Clamping lands inside the bounds. -/
theorem clampQ_mem (lo hi x : ℚ) (h : lo ≤ hi) :
    lo ≤ clampQ lo hi x ∧ clampQ lo hi x ≤ hi := by
  unfold clampQ
  constructor
  · exact le_min h (le_max_left _ _)
  · exact min_le_left _ _

/-- The pan clamp re-establishes the full pan/zoom invariant from the zoom
bounds alone. -/
theorem clampPan_panInv (W H : ℚ) (hW : 0 ≤ W) (hH : 0 ≤ H) (s : VState)
    (h1 : 1 ≤ s.zoom) (h10 : s.zoom ≤ 10) : panInv W H (clampPan W H s) := by
  have hz : (0 : ℚ) < s.zoom := by linarith
  have hfrac : 1 / s.zoom ≤ 1 := by rw [div_le_one hz]; linarith
  have hWnn : 0 ≤ W * (1 - 1 / s.zoom) := mul_nonneg hW (by linarith)
  have hHnn : 0 ≤ H * (1 - 1 / s.zoom) := mul_nonneg hH (by linarith)
  obtain ⟨hx0, hx1⟩ := clampQ_mem 0 (W * (1 - 1 / s.zoom)) s.panX hWnn
  obtain ⟨hy0, hy1⟩ := clampQ_mem 0 (H * (1 - 1 / s.zoom)) s.panY hHnn
  refine ⟨h1, h10, hx0, hx1, hy0, hy1, fun hz1 => ?_⟩
  rw [clampPan] at hz1 ⊢
  simp only at hz1
  constructor
  · apply le_antisymm _ hx0
    simpa [hz1] using hx1
  · apply le_antisymm _ hy0
    simpa [hz1] using hy1

/-- One `handle_view_controls` call preserves the invariant: whatever the
event does, the zoom stays clipped to `[1, 10]` and the final pan clamp
restores the pan bounds. -/
theorem viewStep_panInv (W H : ℚ) (hW : 0 ≤ W) (hH : 0 ≤ H) (e : VEvent) (s : VState)
    (h1 : 1 ≤ s.zoom) (h10 : s.zoom ≤ 10) : panInv W H (viewStep W H e s) := by
  cases e with
  | mdown vx vy => exact clampPan_panInv W H hW hH _ h1 h10
  | mmove vx vy =>
      rw [viewStep]
      split
      · exact clampPan_panInv W H hW hH _ h1 h10
      · exact clampPan_panInv W H hW hH _ h1 h10
  | mup vx vy => exact clampPan_panInv W H hW hH _ h1 h10
  | wheel up vx vy =>
      rw [viewStep]
      refine clampPan_panInv W H hW hH _ ?_ ?_
      · exact (clampQ_mem 1 10 _ (by norm_num)).1
      · exact (clampQ_mem 1 10 _ (by norm_num)).2
  | button vx vy => exact clampPan_panInv W H hW hH _ h1 h10

/-! ## C3: the pan/zoom invariant holds after every event sequence -/

/-- C3.  From the initial view state (zoom 1, pan `(0,0)`), after any
sequence of pan/zoom mouse events the state satisfies
`1 <= zoom <= 10`, `0 <= panOffset <= frameSize*(1 - 1/zoom)`
componentwise, and pan exactly `(0,0)` whenever zoom is 1 (every prefix of
a sequence is itself a sequence, so this covers every intermediate
state). -/
theorem pan_zoom_invariant_all_events (W H : ℚ) (hW : 0 ≤ W) (hH : 0 ≤ H)
    (es : List VEvent) : panInv W H (runEvents W H es) := by
  have step : ∀ (l : List VEvent) (s : VState), panInv W H s →
      panInv W H (l.foldl (fun s e => viewStep W H e s) s) := by
    intro l
    induction l with
    | nil => exact fun s hs => hs
    | cons e es ih =>
        intro s hs
        exact ih _ (viewStep_panInv W H hW hH e s hs.1 hs.2.1)
  refine step es initVState ?_
  norm_num [panInv, initVState]

/-- Witness for C3 at a concrete frame size and event sequence: a zoom-in
at the centre, a pan drag, and a zoom-out near the corner. -/
theorem pan_zoom_invariant_all_events_witness :
    panInv 640 480 (runEvents 640 480
      [VEvent.wheel true 320 240, VEvent.mdown 10 10, VEvent.mmove 50 60,
       VEvent.mup 0 0, VEvent.wheel false 600 400]) :=
  pan_zoom_invariant_all_events 640 480 (by norm_num) (by norm_num) _

/-! ## C2: zoom to cursor -/

/-- C2 (amended).  A zoom-in wheel event with the cursor inside the frame
leaves the source-frame point under the cursor exactly unchanged (the
recomputed pan offset already satisfies the clamp bounds); a zoom-out event
can move that point when the pan clamp binds, as the counterexample below
shows. -/
theorem zoom_in_keeps_cursor_point (W H : ℚ) (s : VState) (vx vy : ℚ)
    (hz1 : 1 ≤ s.zoom) (hz10 : s.zoom ≤ 10)
    (hx0 : 0 ≤ s.panX) (hxW : s.panX ≤ W * (1 - 1 / s.zoom))
    (hy0 : 0 ≤ s.panY) (hyH : s.panY ≤ H * (1 - 1 / s.zoom))
    (hvx0 : 0 ≤ vx) (hvxW : vx ≤ W) (hvy0 : 0 ≤ vy) (hvyH : vy ≤ H) :
    toSourceFrame (viewStep W H (VEvent.wheel true vx vy) s) vx vy
        = toSourceFrame s vx vy := by
  have hz : (0 : ℚ) < s.zoom := by linarith
  have h65 : (1 : ℚ) ≤ s.zoom * (6 / 5) := by linarith
  have hnzval : clampQ 1 10 (s.zoom * (6 / 5)) = min 10 (s.zoom * (6 / 5)) := by
    unfold clampQ
    rw [max_eq_right h65]
  have hznz : s.zoom ≤ min 10 (s.zoom * (6 / 5)) := le_min hz10 (by nlinarith)
  have hnz : (0 : ℚ) < min 10 (s.zoom * (6 / 5)) := lt_of_lt_of_le hz hznz
  have hinv : 1 / min 10 (s.zoom * (6 / 5)) ≤ 1 / s.zoom :=
    one_div_le_one_div_of_le hz hznz
  have h2 : (W - vx) * (1 / min 10 (s.zoom * (6 / 5))) ≤ (W - vx) * (1 / s.zoom) :=
    mul_le_mul_of_nonneg_left hinv (by linarith)
  have h2y : (H - vy) * (1 / min 10 (s.zoom * (6 / 5))) ≤ (H - vy) * (1 / s.zoom) :=
    mul_le_mul_of_nonneg_left hinv (by linarith)
  have h1 : vx * (1 / min 10 (s.zoom * (6 / 5))) ≤ vx * (1 / s.zoom) :=
    mul_le_mul_of_nonneg_left hinv hvx0
  have h1y : vy * (1 / min 10 (s.zoom * (6 / 5))) ≤ vy * (1 / s.zoom) :=
    mul_le_mul_of_nonneg_left hinv hvy0
  have ex : vx / s.zoom = vx * (1 / s.zoom) := by ring
  have exn : vx / min 10 (s.zoom * (6 / 5)) = vx * (1 / min 10 (s.zoom * (6 / 5))) := by
    ring
  have ey : vy / s.zoom = vy * (1 / s.zoom) := by ring
  have eyn : vy / min 10 (s.zoom * (6 / 5)) = vy * (1 / min 10 (s.zoom * (6 / 5))) := by
    ring
  simp only [viewStep, clampPan, toSourceFrame, hnzval, if_true]
  rw [clampQ_eq_self, clampQ_eq_self]
  · simp only [Prod.mk.injEq]
    constructor <;> ring
  · rw [ey, eyn]; linarith
  · rw [ey, eyn]
    have hH' : s.panY ≤ H * (1 - 1 / s.zoom) := hyH
    nlinarith [h2y, h1y]
  · rw [ex, exn]; linarith
  · rw [ex, exn]
    nlinarith [h2, h1]

/-- C2 counterexample to the claim as stated: from a legal view state
(zoom 2, pan `(50,50)`, within bounds for a 100x100 frame), one zoom-OUT
wheel event with the cursor at view `(0,0)` moves the source point under
the cursor from `(50,50)` to `(40,40)`: the recomputed pan offset `50`
exceeds the new bound `100*(1-1/(5/3)) = 40` and is clamped. -/
theorem zoom_out_clamp_moves_cursor_point :
    (1 : ℚ) ≤ cexVState.zoom ∧ cexVState.zoom ≤ 10 ∧
    0 ≤ cexVState.panX ∧ cexVState.panX ≤ 100 * (1 - 1 / cexVState.zoom) ∧
    0 ≤ cexVState.panY ∧ cexVState.panY ≤ 100 * (1 - 1 / cexVState.zoom) ∧
    toSourceFrame (viewStep 100 100 (VEvent.wheel false 0 0) cexVState) 0 0
        ≠ toSourceFrame cexVState 0 0 := by
  refine ⟨by norm_num [cexVState], by norm_num [cexVState], by norm_num [cexVState],
    by norm_num [cexVState], by norm_num [cexVState], by norm_num [cexVState], ?_⟩
  norm_num [cexVState, viewStep, clampPan, clampQ, toSourceFrame, Prod.ext_iff]

/-- Witness for C2's theorem: zoom-in at view point `(30, 20)` from zoom 2
with pan `(10, 20)` on a 100x100 frame. -/
theorem zoom_in_keeps_cursor_point_witness :
    toSourceFrame (viewStep 100 100 (VEvent.wheel true 30 20) ⟨2, 10, 20, false, 0, 0⟩) 30 20
        = toSourceFrame ⟨2, 10, 20, false, 0, 0⟩ 30 20 :=
  zoom_in_keeps_cursor_point 100 100 ⟨2, 10, 20, false, 0, 0⟩ 30 20
    (by norm_num) (by norm_num) (by norm_num) (by norm_num) (by norm_num)
    (by norm_num) (by norm_num) (by norm_num) (by norm_num) (by norm_num)

/-! ## Corner-selection lemmas -/

/-- The selected minimum is one of the four inputs. -/
theorem selMin_mem (f : ℚ × ℚ → ℚ) (p0 p1 p2 p3 : ℚ × ℚ) :
    selMin f p0 p1 p2 p3 = p0 ∨ selMin f p0 p1 p2 p3 = p1 ∨
    selMin f p0 p1 p2 p3 = p2 ∨ selMin f p0 p1 p2 p3 = p3 := by
  simp only [selMin]
  split_ifs <;> simp

/-- The selected minimum attains the least `f`-value among the four inputs. -/
theorem selMin_le (f : ℚ × ℚ → ℚ) (p0 p1 p2 p3 : ℚ × ℚ) :
    f (selMin f p0 p1 p2 p3) ≤ f p0 ∧ f (selMin f p0 p1 p2 p3) ≤ f p1 ∧
    f (selMin f p0 p1 p2 p3) ≤ f p2 ∧ f (selMin f p0 p1 p2 p3) ≤ f p3 := by
  simp only [selMin]
  split_ifs <;> refine ⟨?_, ?_, ?_, ?_⟩ <;> linarith

/-- The selected maximum is one of the four inputs. -/
theorem selMax_mem (f : ℚ × ℚ → ℚ) (p0 p1 p2 p3 : ℚ × ℚ) :
    selMax f p0 p1 p2 p3 = p0 ∨ selMax f p0 p1 p2 p3 = p1 ∨
    selMax f p0 p1 p2 p3 = p2 ∨ selMax f p0 p1 p2 p3 = p3 := by
  simp only [selMax]
  split_ifs <;> simp

/-- The selected maximum attains the greatest `f`-value among the inputs. -/
theorem selMax_ge (f : ℚ × ℚ → ℚ) (p0 p1 p2 p3 : ℚ × ℚ) :
    f p0 ≤ f (selMax f p0 p1 p2 p3) ∧ f p1 ≤ f (selMax f p0 p1 p2 p3) ∧
    f p2 ≤ f (selMax f p0 p1 p2 p3) ∧ f p3 ≤ f (selMax f p0 p1 p2 p3) := by
  simp only [selMax]
  split_ifs <;> refine ⟨?_, ?_, ?_, ?_⟩ <;> linarith

/-! ## C6: corner ordering -/

/-- C6 (amended).  `_order_points` returns its corners in the order
(top-left, top-right, bottom-right, bottom-left), where the top-left slot
holds a corner of minimal `x+y`, the bottom-right slot one of maximal
`x+y`, the top-right slot one of MAXIMAL `x-y` (the code minimises
`np.diff = y-x`), and the bottom-left slot one of MINIMAL `x-y` — the
opposite of the claim's `x-y` rule; each slot holds one of the four
inputs. -/
theorem order_points_sum_diff_rule (q : Quad) :
    ((orderPoints q).q0 ∈ quadList q ∧
      ∀ p ∈ quadList q, sumXY (orderPoints q).q0 ≤ sumXY p) ∧
    ((orderPoints q).q2 ∈ quadList q ∧
      ∀ p ∈ quadList q, sumXY p ≤ sumXY (orderPoints q).q2) ∧
    ((orderPoints q).q1 ∈ quadList q ∧
      ∀ p ∈ quadList q, p.1 - p.2 ≤ (orderPoints q).q1.1 - (orderPoints q).q1.2) ∧
    ((orderPoints q).q3 ∈ quadList q ∧
      ∀ p ∈ quadList q, (orderPoints q).q3.1 - (orderPoints q).q3.2 ≤ p.1 - p.2) := by
  obtain ⟨a0, a1, a2, a3⟩ := q
  simp only [orderPoints, quadList, List.mem_cons, List.not_mem_nil, or_false]
  obtain ⟨s0, s1, s2, s3⟩ := selMin_le sumXY a0 a1 a2 a3
  obtain ⟨d0, d1, d2, d3⟩ := selMin_le diffYX a0 a1 a2 a3
  obtain ⟨t0, t1, t2, t3⟩ := selMax_ge sumXY a0 a1 a2 a3
  obtain ⟨e0, e1, e2, e3⟩ := selMax_ge diffYX a0 a1 a2 a3
  simp only [diffYX] at d0 d1 d2 d3 e0 e1 e2 e3
  refine ⟨⟨selMin_mem sumXY a0 a1 a2 a3, ?_⟩, ⟨selMax_mem sumXY a0 a1 a2 a3, ?_⟩,
    ⟨selMin_mem diffYX a0 a1 a2 a3, ?_⟩, ⟨selMax_mem diffYX a0 a1 a2 a3, ?_⟩⟩ <;>
  · intro p hp
    rcases hp with rfl | rfl | rfl | rfl <;> first
      | exact s0 | exact s1 | exact s2 | exact s3
      | exact t0 | exact t1 | exact t2 | exact t3
      | linarith

/-- C6 counterexample to the claim as stated: on the square `testSq` the
function places `(10,0)` (the true top-right, with MAXIMAL `x-y`) in the
top-right slot, so the top-right slot does not hold a corner of minimal
`x-y` as the claim asserts — `(0,10)` has the smaller `x-y`. -/
theorem order_points_claim_cex :
    (orderPoints testSq).q1 = (10, 0) ∧
    ¬ ∀ p ∈ quadList testSq,
        (orderPoints testSq).q1.1 - (orderPoints testSq).q1.2 ≤ p.1 - p.2 := by
  have h1 : (orderPoints testSq).q1 = (10, 0) := by
    norm_num [orderPoints, testSq, selMin, diffYX]
  refine ⟨h1, ?_⟩
  push_neg
  refine ⟨(0, 10), by simp [quadList, testSq], ?_⟩
  rw [h1]
  norm_num

/-- Witness for C6's theorem at the concrete square `testSq`. -/
theorem order_points_sum_diff_rule_witness :
    (orderPoints testSq).q0 ∈ quadList testSq ∧
    sumXY (orderPoints testSq).q0 ≤ sumXY ((10 : ℚ), (10 : ℚ)) :=
  ⟨(order_points_sum_diff_rule testSq).1.1,
   (order_points_sum_diff_rule testSq).1.2 (10, 10) (by simp [quadList, testSq])⟩

/-! ## Renumbering lemmas -/

/-- Renumbering does not touch the camera coordinates. -/
theorem renumAux_map_cam (l : List Sample) : ∀ k : ℕ,
    (renumAux k l).map Sample.cam = l.map Sample.cam := by
  induction l with
  | nil => intro k; rfl
  | cons p r ih => intro k; simp [renumAux, ih (k + 1)]

/-- Renumbering does not touch the millimeter coordinates. -/
theorem renumAux_map_real (l : List Sample) : ∀ k : ℕ,
    (renumAux k l).map Sample.real = l.map Sample.real := by
  induction l with
  | nil => intro k; rfl
  | cons p r ih => intro k; simp [renumAux, ih (k + 1)]

/-- Renumbering does not touch the sample labels. -/
theorem renumAux_map_label (l : List Sample) : ∀ k : ℕ,
    (renumAux k l).map Sample.sampleId = l.map Sample.sampleId := by
  induction l with
  | nil => intro k; rfl
  | cons p r ih => intro k; simp [renumAux, ih (k + 1)]

/-- After renumbering from `k`, the file ids are the dense zero-padded
sequence `k, k+1, ...` by position. -/
theorem renumAux_map_file (l : List Sample) : ∀ k : ℕ,
    (renumAux k l).map Sample.file = (List.range l.length).map fun j => padFile (k + j) := by
  induction l with
  | nil => intro k; rfl
  | cons p r ih =>
      intro k
      simp only [renumAux, List.map_cons, List.length_cons, List.range_succ_eq_map,
        List.map_map, ih (k + 1)]
      refine congrArg₂ _ (by simp) ?_
      refine List.map_congr_left fun j hj => ?_
      simp only [Function.comp]
      exact congrArg padFile (by omega)

/-! ## C8: renumbering after removal -/

/-- C8.  Deleting the element at index `i` keeps the remaining samples in
their relative order (the result is literally the prefix before `i`
followed by the suffix after `i`), preserves every surviving sample's
camera and millimeter coordinates and label, and rewrites the file ids to
the dense zero-padded 1-based sequence `1..n-1`. -/
theorem renumber_after_removal (pts : List Sample) (i : ℕ) (h : i < pts.length) :
    pts.eraseIdx i = pts.take i ++ pts.drop (i + 1) ∧
    (renumberFiles (pts.eraseIdx i)).map Sample.cam
        = (pts.take i ++ pts.drop (i + 1)).map Sample.cam ∧
    (renumberFiles (pts.eraseIdx i)).map Sample.real
        = (pts.take i ++ pts.drop (i + 1)).map Sample.real ∧
    (renumberFiles (pts.eraseIdx i)).map Sample.sampleId
        = (pts.take i ++ pts.drop (i + 1)).map Sample.sampleId ∧
    (renumberFiles (pts.eraseIdx i)).map Sample.file
        = (List.range (pts.length - 1)).map fun j => padFile (j + 1) := by
  have hlen : (pts.eraseIdx i).length = pts.length - 1 := by
    rw [List.length_eraseIdx]
    simp [h]
  refine ⟨List.eraseIdx_eq_take_drop_succ pts i, ?_, ?_, ?_, ?_⟩
  · rw [renumberFiles, renumAux_map_cam, List.eraseIdx_eq_take_drop_succ]
  · rw [renumberFiles, renumAux_map_real, List.eraseIdx_eq_take_drop_succ]
  · rw [renumberFiles, renumAux_map_label, List.eraseIdx_eq_take_drop_succ]
  · rw [renumberFiles, renumAux_map_file, hlen]
    exact List.map_congr_left fun j hj => congrArg padFile (by omega)

/-- Witness for C8: removing the sample at 0-based index 1 (file id `02`)
of five leaves the other four in order with their coordinates intact and
file ids renumbered `01..04`. -/
theorem renumber_after_removal_witness :
    fiveSamples.eraseIdx 1 = fiveSamples.take 1 ++ fiveSamples.drop 2 ∧
    (renumberFiles (fiveSamples.eraseIdx 1)).map Sample.cam
        = (fiveSamples.take 1 ++ fiveSamples.drop 2).map Sample.cam ∧
    (renumberFiles (fiveSamples.eraseIdx 1)).map Sample.real
        = (fiveSamples.take 1 ++ fiveSamples.drop 2).map Sample.real ∧
    (renumberFiles (fiveSamples.eraseIdx 1)).map Sample.sampleId
        = (fiveSamples.take 1 ++ fiveSamples.drop 2).map Sample.sampleId ∧
    (renumberFiles (fiveSamples.eraseIdx 1)).map Sample.file
        = (List.range (fiveSamples.length - 1)).map fun j => padFile (j + 1) :=
  renumber_after_removal fiveSamples 1 (by norm_num [fiveSamples])

/-! ## Minimum-index lemmas (`np.argmin`) -/

/-- `minVal` bounds every element from below. -/
theorem minVal_le (l : List ℚ) : ∀ x ∈ l, minVal l ≤ x := by
  induction l with
  | nil => simp
  | cons a t ih =>
      cases t with
      | nil =>
          intro x hx
          simp only [List.mem_singleton] at hx
          simp [minVal, hx]
      | cons b r =>
          intro x hx
          rw [minVal]
          rcases List.mem_cons.mp hx with rfl | hmem
          · exact min_le_left _ _
          · exact le_trans (min_le_right _ _) (ih x hmem)

/-- `minVal` of a nonempty list is one of its elements. -/
theorem minVal_mem (l : List ℚ) (h : l ≠ []) : minVal l ∈ l := by
  induction l with
  | nil => exact absurd rfl h
  | cons a t ih =>
      cases t with
      | nil => simp [minVal]
      | cons b r =>
          rw [minVal]
          rcases le_total a (minVal (b :: r)) with hle | hle
          · simp [min_eq_left hle]
          · rw [min_eq_right hle]
            exact List.mem_cons_of_mem a (ih (by simp))

/-- `minIdx` is a valid index of a nonempty list. -/
theorem minIdx_lt (l : List ℚ) (h : l ≠ []) : minIdx l < l.length := by
  induction l with
  | nil => exact absurd rfl h
  | cons a t ih =>
      cases t with
      | nil => simp [minIdx]
      | cons b r =>
          rw [minIdx]
          split_ifs with hle
          · simp
          · simpa using Nat.succ_lt_succ (ih (by simp))

/-- The value at `minIdx` is the minimum. -/
theorem getD_minIdx (l : List ℚ) (h : l ≠ []) : l.getD (minIdx l) 0 = minVal l := by
  induction l with
  | nil => exact absurd rfl h
  | cons a t ih =>
      cases t with
      | nil => simp [minIdx, minVal]
      | cons b r =>
          rw [minIdx, minVal]
          split_ifs with hle
          · simp [min_eq_left hle]
          · push_neg at hle
            rw [min_eq_right (le_of_lt hle)]
            simpa using ih (by simp)

/-! ## C9: nearest-point removal -/

/-- C9 (amended).  Both removal handlers use the zoom-scaled source-frame
radius `15 / zoom` and are no-ops when no stored point lies within it; but
only the SAMPLE handler removes the single closest stored point within the
radius (first index on ties, via `np.argmin`).  The CALIBRATION handler
instead scans in insertion order and removes the FIRST stored point within
the radius, which need not be the closest. -/
theorem remove_nearest_behavior (zoom : ℚ) (c : ℚ × ℚ) :
    (∀ pts : List Sample,
      ((∀ p ∈ pts, ¬ sqDistQ p.cam c < (15 / zoom) ^ 2) →
        removeNearestSample zoom pts c = pts) ∧
      ((∃ p ∈ pts, sqDistQ p.cam c < (15 / zoom) ^ 2) →
        ∃ i : ℕ, ∃ hi : i < pts.length,
          (∀ p ∈ pts, sqDistQ (pts.get ⟨i, hi⟩).cam c ≤ sqDistQ p.cam c) ∧
          sqDistQ (pts.get ⟨i, hi⟩).cam c < (15 / zoom) ^ 2 ∧
          removeNearestSample zoom pts c = renumberFiles (pts.eraseIdx i))) ∧
    (∀ (l1 l2 : List (ℤ × ℤ)) (p : ℤ × ℤ),
      (∀ x ∈ l1, ¬ sqDistZQ x c < (15 / zoom) ^ 2) →
      sqDistZQ p c < (15 / zoom) ^ 2 →
      calibRemoveNearest zoom (l1 ++ p :: l2) c = l1 ++ l2) ∧
    (∀ l : List (ℤ × ℤ),
      (∀ x ∈ l, ¬ sqDistZQ x c < (15 / zoom) ^ 2) →
      calibRemoveNearest zoom l c = l) := by
  refine ⟨fun pts => ?_, fun l1 l2 p h1 hp => ?_, fun l hl => ?_⟩
  · rcases pts with _ | ⟨a, t⟩
    · exact ⟨fun _ => rfl, fun ⟨p, hp, _⟩ => absurd hp (List.not_mem_nil p)⟩
    · have hne : (a :: t).map (fun p => sqDistQ p.cam c) ≠ [] := by simp
      have hlen : ((a :: t).map fun p => sqDistQ p.cam c).length = (a :: t).length := by
        simp
      have hidx : minIdx ((a :: t).map fun p => sqDistQ p.cam c) < (a :: t).length :=
        hlen ▸ minIdx_lt _ hne
      have hmin := getD_minIdx _ hne
      have hgetd : ((a :: t).map fun p => sqDistQ p.cam c).getD
          (minIdx ((a :: t).map fun p => sqDistQ p.cam c)) 0
            = sqDistQ ((a :: t).get ⟨minIdx ((a :: t).map fun p => sqDistQ p.cam c),
                hidx⟩).cam c := by
        rw [List.getD_eq_getElem _ _ (hlen ▸ hidx), List.getElem_map]
        rfl
      constructor
      · intro hno
        have hge : ¬ ((a :: t).map fun p => sqDistQ p.cam c).getD
            (minIdx ((a :: t).map fun p => sqDistQ p.cam c)) 0 < (15 / zoom) ^ 2 := by
          rw [hgetd]
          exact hno _ (List.get_mem _ _ _)
        simp only [removeNearestSample]
        rw [if_neg hge]
      · rintro ⟨p, hpmem, hplt⟩
        refine ⟨minIdx ((a :: t).map fun p => sqDistQ p.cam c), hidx, ?_, ?_, ?_⟩
        · intro x hx
          rw [← hgetd, hmin]
          exact minVal_le _ _ (List.mem_map_of_mem _ hx)
        · calc sqDistQ ((a :: t).get ⟨_, hidx⟩).cam c
              = minVal ((a :: t).map fun p => sqDistQ p.cam c) := by rw [← hgetd, hmin]
            _ ≤ sqDistQ p.cam c := minVal_le _ _ (List.mem_map_of_mem _ hpmem)
            _ < (15 / zoom) ^ 2 := hplt
        · have hlt : ((a :: t).map fun p => sqDistQ p.cam c).getD
              (minIdx ((a :: t).map fun p => sqDistQ p.cam c)) 0 < (15 / zoom) ^ 2 := by
            rw [hgetd, ← hgetd, hmin]
            exact lt_of_le_of_lt (minVal_le _ _ (List.mem_map_of_mem _ hpmem)) hplt
          simp only [removeNearestSample]
          rw [if_pos hlt]
  · induction l1 with
    | nil => simp [calibRemoveNearest, calibRemoveFirstWithin, hp]
    | cons x l1 ih =>
        have hx : ¬ sqDistZQ x c < (15 / zoom) ^ 2 := h1 x (List.mem_cons_self x l1)
        have ih' := ih fun y hy => h1 y (List.mem_cons_of_mem x hy)
        simp only [calibRemoveNearest, calibRemoveFirstWithin, List.cons_append] at ih' ⊢
        rw [if_neg hx]
        exact congrArg _ ih'
  · induction l with
    | nil => rfl
    | cons x t ih =>
        have hx : ¬ sqDistZQ x c < (15 / zoom) ^ 2 := hl x (List.mem_cons_self x t)
        have ih' := ih fun y hy => hl y (List.mem_cons_of_mem x hy)
        simp only [calibRemoveNearest, calibRemoveFirstWithin] at ih' ⊢
        rw [if_neg hx]
        exact congrArg _ ih'

/-- C9 counterexample to the claim as stated: with calibration points
`[(10,0), (0,0)]`, a right-click at `(0,0)` at zoom 1 (radius 15) removes
`(10,0)` — the FIRST point within the radius — even though `(0,0)` is
strictly closer (distance 0 versus 10). -/
theorem calib_remove_not_nearest_cex :
    calibRemoveNearest 1 [(10, 0), (0, 0)] (0, 0) = [(0, 0)] ∧
    sqDistZQ (0, 0) (0, 0) < sqDistZQ (10, 0) (0, 0) := by
  constructor
  · norm_num [calibRemoveNearest, calibRemoveFirstWithin, sqDistZQ]
  · norm_num [sqDistZQ]

/-- Witness for C9's theorem: a no-op sample removal (the only sample is out
of radius) and a calibration removal hitting the first in-radius point. -/
theorem remove_nearest_behavior_witness :
    removeNearestSample 1 [⟨"01", "", (100, 100), (5, 5)⟩] (0, 0)
        = [⟨"01", "", (100, 100), (5, 5)⟩] ∧
    calibRemoveNearest 1 ([] ++ (10, 0) :: [(0, 0)]) (3, 0) = [] ++ [(0, 0)] :=
  ⟨((remove_nearest_behavior 1 (0, 0)).1 _).1
      (by
        intro p hp
        simp only [List.mem_singleton] at hp
        subst hp
        norm_num [sqDistQ]),
   (remove_nearest_behavior 1 (3, 0)).2.1 [] [(0, 0)] (10, 0)
      (by simp)
      (by norm_num [sqDistZQ])⟩

/-! ## Matrix algebra lemmas for the homography model -/

/-- Matrix multiplication is associative. -/
theorem mul3_assoc (A B C : M3) : mul3 (mul3 A B) C = mul3 A (mul3 B C) := by
  ext <;> simp only [mul3] <;> ring

/-- Multiplying by the adjugate on the left yields `det` times the identity. -/
theorem adj3_mul3 (A : M3) : mul3 (adj3 A) A = smul3 (det3 A) idM3 := by
  ext <;> simp only [mul3, adj3, smul3, idM3, det3] <;> ring

/-- Multiplying by the adjugate on the right yields `det` times the identity. -/
theorem mul3_adj3 (A : M3) : mul3 A (adj3 A) = smul3 (det3 A) idM3 := by
  ext <;> simp only [mul3, adj3, smul3, idM3, det3] <;> ring

/-- Scalars pull out of a right factor. -/
theorem mul3_smul3_right (c : ℚ) (A B : M3) : mul3 A (smul3 c B) = smul3 c (mul3 A B) := by
  ext <;> simp only [mul3, smul3] <;> ring

/-- Scalars pull out of a left factor. -/
theorem mul3_smul3_left (c : ℚ) (A B : M3) : mul3 (smul3 c A) B = smul3 c (mul3 A B) := by
  ext <;> simp only [mul3, smul3] <;> ring

/-- The identity matrix is a left unit. -/
theorem idM3_mul3 (A : M3) : mul3 idM3 A = A := by
  ext <;> simp only [mul3, idM3] <;> ring

/-- Nested scalar multiples combine. -/
theorem smul3_smul3 (b c : ℚ) (A : M3) : smul3 b (smul3 c A) = smul3 (b * c) A := by
  ext <;> simp only [smul3] <;> ring

/-- Matrix-vector application respects matrix multiplication. -/
theorem mulVec3_mul3 (A B : M3) (v : V3) :
    mulVec3 (mul3 A B) v = mulVec3 A (mulVec3 B v) := by
  simp only [mulVec3, mul3, Prod.mk.injEq]
  refine ⟨by ring, by ring, by ring⟩

/-- The denominator `wOf` is the third homogeneous output coordinate. -/
theorem wOf_eq (M : M3) (p : ℚ × ℚ) : (mulVec3 M (lift2 p)).2.2 = wOf M p := by
  simp only [mulVec3, lift2, wOf]
  ring

/-- The forward/backward solves from the same correspondences compose to a
scalar multiple of the identity: the product of the two `basisH`
determinants. -/
theorem getPT_inv_mul (src dst : Quad) :
    mul3 (getPT dst src) (getPT src dst)
      = smul3 (det3 (basisH dst) * det3 (basisH src)) idM3 := by
  unfold getPT
  rw [mul3_assoc, ← mul3_assoc (adj3 (basisH dst)), adj3_mul3, mul3_smul3_left,
    idM3_mul3, mul3_smul3_right, mul3_adj3, smul3_smul3]

/-- Applying a nonzero scalar multiple of the identity is the identity map. -/
theorem applyH_smul_id (c : ℚ) (hc : c ≠ 0) (p : ℚ × ℚ) :
    applyH (smul3 c idM3) p = p := by
  obtain ⟨px, py⟩ := p
  simp only [applyH, mulVec3, smul3, idM3, lift2, mul_zero, zero_mul, mul_one, one_mul,
    add_zero, zero_add]
  rw [if_neg hc]
  simp only [Prod.mk.injEq]
  exact ⟨mul_div_cancel_left₀ _ hc, mul_div_cancel_left₀ _ hc⟩

/-- Scaling the input vector by a nonzero denominator scales the output. -/
theorem mulVec3_scale (A : M3) (x y w : ℚ) (hw : w ≠ 0) :
    mulVec3 A (x / w, y / w, 1)
      = (w⁻¹ * (mulVec3 A (x, y, w)).1, w⁻¹ * (mulVec3 A (x, y, w)).2.1,
         w⁻¹ * (mulVec3 A (x, y, w)).2.2) := by
  have hc : w⁻¹ * w = 1 := inv_mul_cancel₀ hw
  simp only [mulVec3, Prod.mk.injEq]
  refine ⟨?_, ?_, ?_⟩
  · linear_combination (-A.m02) * hc
  · linear_combination (-A.m12) * hc
  · linear_combination (-A.m22) * hc

/-- Projective application composes with matrix multiplication wherever the
first map's denominator does not vanish. -/
theorem applyH_comp (A B : M3) (p : ℚ × ℚ) (hw : wOf B p ≠ 0) :
    applyH A (applyH B p) = applyH (mul3 A B) p := by
  have hw' : (mulVec3 B (lift2 p)).2.2 ≠ 0 := by rw [wOf_eq]; exact hw
  have hB : applyH B p
      = ((mulVec3 B (lift2 p)).1 / (mulVec3 B (lift2 p)).2.2,
         (mulVec3 B (lift2 p)).2.1 / (mulVec3 B (lift2 p)).2.2) := by
    unfold applyH
    rw [if_neg hw']
  rw [hB]
  unfold applyH
  rw [mulVec3_mul3]
  rw [show lift2 ((mulVec3 B (lift2 p)).1 / (mulVec3 B (lift2 p)).2.2,
        (mulVec3 B (lift2 p)).2.1 / (mulVec3 B (lift2 p)).2.2)
      = ((mulVec3 B (lift2 p)).1 / (mulVec3 B (lift2 p)).2.2,
         (mulVec3 B (lift2 p)).2.1 / (mulVec3 B (lift2 p)).2.2, 1) from rfl]
  rw [mulVec3_scale A _ _ _ hw']
  rw [show ((mulVec3 B (lift2 p)).1, (mulVec3 B (lift2 p)).2.1,
        (mulVec3 B (lift2 p)).2.2) = mulVec3 B (lift2 p) from rfl]
  rcases eq_or_ne (mulVec3 A (mulVec3 B (lift2 p))).2.2 0 with hz | hz
  · simp only [hz, mul_zero]
    norm_num
  · have hz' : (mulVec3 B (lift2 p)).2.2⁻¹ * (mulVec3 A (mulVec3 B (lift2 p))).2.2 ≠ 0 :=
      mul_ne_zero (inv_ne_zero hw') hz
    rw [if_neg hz', if_neg hz]
    simp only [Prod.mk.injEq]
    exact ⟨mul_div_mul_left _ _ (inv_ne_zero hw'), mul_div_mul_left _ _ (inv_ne_zero hw')⟩

/-! ## C4: bounds test and sample creation -/

/-- C4.  For any 4-corner mapping and click point: `_transform_cam_to_real`
returns the forward-homography image divided by 10 exactly when that image
lies in `[0, 1300) x [0, 1200)` (130mm x 120mm at the precision multiplier
10), and `None` — with no clamping — otherwise; and a left-click adds no
sample on `None`, while on success it appends exactly one sample with the
next sequential zero-padded file id and an empty label. -/
theorem pixel_to_mm_bounds_and_add (corners : Quad) (p : ℚ × ℚ) (pts : List Sample) :
    (inDst (fwdImage corners p) →
      transformCamToReal corners p
          = some ((fwdImage corners p).1 / 10, (fwdImage corners p).2 / 10)) ∧
    (¬ inDst (fwdImage corners p) → transformCamToReal corners p = none) ∧
    (transformCamToReal corners p = none → leftClickAdd corners pts p = pts) ∧
    (∀ m, transformCamToReal corners p = some m →
      leftClickAdd corners pts p = pts ++ [⟨padFile (pts.length + 1), "", p, m⟩]) := by
  refine ⟨fun h => ?_, fun h => ?_, fun h => ?_, fun m h => ?_⟩
  · simp only [transformCamToReal]
    rw [if_pos h]
  · simp only [transformCamToReal]
    rw [if_neg h]
  · unfold leftClickAdd
    rw [h]
  · unfold leftClickAdd
    rw [h]

set_option maxHeartbeats 1000000 in
/-- Witness for C4 at the square `corners100`, a click at its centre
`(50, 50)` (in bounds) and an empty sample set. -/
theorem pixel_to_mm_bounds_and_add_witness :
    transformCamToReal corners100 (50, 50)
        = some ((fwdImage corners100 (50, 50)).1 / 10,
                (fwdImage corners100 (50, 50)).2 / 10) ∧
    leftClickAdd corners100 [] (50, 50)
        = [] ++ [⟨padFile (List.length ([] : List Sample) + 1), "", (50, 50),
                  ((fwdImage corners100 (50, 50)).1 / 10,
                   (fwdImage corners100 (50, 50)).2 / 10)⟩] := by
  have hin : inDst (fwdImage corners100 (50, 50)) := by
    norm_num [fwdImage, getPT, basisH, orderPoints, selMin, selMax, sumXY, diffYX,
      corners100, dstQuad, lift2, det3v, adj3, mul3, mulVec3, applyH, inDst]
  have h1 := (pixel_to_mm_bounds_and_add corners100 (50, 50) []).1 hin
  exact ⟨h1, (pixel_to_mm_bounds_and_add corners100 (50, 50) []).2.2.2 _ h1⟩

/-! ## C7: degenerate corners -/

set_option maxHeartbeats 1000000 in
/-- C7 (the code violates the claim).  With all four corners coincident at
`(300, 300)` — a degenerate input that passes the only guard in
`_transform_cam_to_real` (`corners is None or len != 4`) — the modelled
perspective solve produces the all-zero (singular) matrix, no typed failure
is signalled, the click maps to `(0, 0)` (OpenCV's output at `w = 0`),
which passes the bounds test, and a spurious sample at 0mm/0mm is
appended. -/
theorem degenerate_corners_add_garbage_sample :
    transformCamToReal degQuad (500, 400) = some (0, 0) ∧
    leftClickAdd degQuad [] (500, 400) = [⟨padFile 1, "", (500, 400), (0, 0)⟩] := by
  have h : transformCamToReal degQuad (500, 400) = some (0, 0) := by
    norm_num [transformCamToReal, fwdImage, getPT, basisH, orderPoints, selMin, selMax,
      sumXY, diffYX, degQuad, dstQuad, lift2, det3v, adj3, mul3, mulVec3, applyH, inDst]
  refine ⟨h, ?_⟩
  simp [leftClickAdd, h]

/-! ## C5: homography round trip -/

/-- C5.  Composing the forward pixel-to-mm transform with the grid
renderer's inverse mm-to-pixel transform (built from the same corner
correspondences in the opposite direction) is the identity: whenever the
forward map is defined at `p` (nonvanishing denominator, which holds on the
rectangle) and returns an in-bounds mm point `q`, the grid map sends `q`
back to `p` exactly.  The two `det` hypotheses express non-degeneracy of
the corner configurations. -/
theorem homography_round_trip (corners : Quad) (p q : ℚ × ℚ)
    (hs : det3 (basisH (orderPoints corners)) ≠ 0)
    (hd : det3 (basisH dstQuad) ≠ 0)
    (hw : wOf (getPT (orderPoints corners) dstQuad) p ≠ 0)
    (ht : transformCamToReal corners p = some q) :
    gridMmToPixel corners q = p := by
  simp only [transformCamToReal] at ht
  by_cases hin : inDst (fwdImage corners p)
  · rw [if_pos hin] at ht
    obtain rfl : ((fwdImage corners p).1 / 10, (fwdImage corners p).2 / 10) = q :=
      Option.some.inj ht
    unfold gridMmToPixel
    have a10 : (10 : ℚ) * ((fwdImage corners p).1 / 10) = (fwdImage corners p).1 := by
      ring
    have b10 : (10 : ℚ) * ((fwdImage corners p).2 / 10) = (fwdImage corners p).2 := by
      ring
    rw [a10, b10]
    rw [show ((fwdImage corners p).1, (fwdImage corners p).2) = fwdImage corners p from
      rfl]
    unfold fwdImage
    rw [applyH_comp _ _ _ hw, getPT_inv_mul]
    exact applyH_smul_id _ (mul_ne_zero hd hs) p
  · rw [if_neg hin] at ht
    exact absurd ht (by simp)

set_option maxHeartbeats 1000000 in
/-- Witness for C5 at the square `corners100` and its centre point. -/
theorem homography_round_trip_witness :
    gridMmToPixel corners100
        ((fwdImage corners100 (50, 50)).1 / 10, (fwdImage corners100 (50, 50)).2 / 10)
      = (50, 50) := by
  have hin : inDst (fwdImage corners100 (50, 50)) := by
    norm_num [fwdImage, getPT, basisH, orderPoints, selMin, selMax, sumXY, diffYX,
      corners100, dstQuad, lift2, det3v, adj3, mul3, mulVec3, applyH, inDst]
  refine homography_round_trip corners100 (50, 50) _ ?_ ?_ ?_ ?_
  · norm_num [det3, basisH, orderPoints, selMin, selMax, sumXY, diffYX, corners100,
      lift2, det3v]
  · norm_num [det3, basisH, dstQuad, lift2, det3v]
  · norm_num [wOf, getPT, basisH, orderPoints, selMin, selMax, sumXY, diffYX,
      corners100, dstQuad, lift2, det3v, adj3, mul3]
  · simp only [transformCamToReal]
    rw [if_pos hin]
